import Mathlib

/-!
Verification of the NCNN backend execution wrapper
(`mmdeploy/backend/ncnn/wrapper.py`, class `NCNNWrapper`).

The wrapper adapts a per-sample inference engine to batched tensor inputs:
it validates the batch, runs one extractor per sample, and restacks the
per-sample results into batched output tensors.  The definitions below are a
shallow embedding of that Python code: tensors become lists of per-sample
payloads, Python dicts become association lists with unique keys, Python
exceptions become an error type threaded through `Except`, and the ncnn
engine becomes an explicit deterministic extraction function.
-/

namespace NCNN

/-- Numeric payload of one sample.  It models both an `ncnn.Mat` buffer and
the single-sample `torch` tensor obtained from it: the code converts between
the two with `ncnn.Mat(t.detach().cpu().numpy())` and
`torch.from_numpy(np.array(mat))`, both of which preserve the numeric
content, so one flat list of integers stands for either representation. -/
abbrev Mat := List Int

/-- Shallow embedding of a batched `torch.Tensor` as used by
`NCNNWrapper.forward`: `device` models `tensor.device.type`, and `data`
indexes the leading (batch) dimension, so `tensor.size(0)` is `data.length`
and the slice `tensor[i]` is `data[i]`. -/
structure Tensor where
  device : String
  data : List Mat
deriving DecidableEq, Repr

/-- The Python exceptions that the code paths of `NCNNWrapper` can raise. -/
inductive PyError where
  | indexError (msg : String)
  | keyError (msg : String)
  | assertionError (msg : String)
  | typeError (msg : String)
  | runtimeError (msg : String)
deriving DecidableEq, Repr

/-- The loaded `ncnn.Net` held in `self._net`.  `outputNamesAttr` is
`some names` exactly when the net object exposes the `output_names`
introspection (the `hasattr` probe on the attribute `output_names`), in which
case `names` is what `self._net.output_names()` returns.  `extract` models
the engine: given the mats bound to a fresh extractor (the `ex.input` calls,
in order) and an output name, `ex.extract(name)` returns a status code and
an output mat.  The engine is modelled as a deterministic function, as the
determinism clause of the spec assumes. -/
structure Net where
  outputNamesAttr : Option (List String)
  extract : List (String × Mat) → String → Int × Mat

/-- Python dict item assignment `d[k] = v` on an association list with
unique keys: update the value in place when the key exists, else append. -/
def dictSet {α : Type} : List (String × α) → String → α → List (String × α)
  | [], k, v => [(k, v)]
  | p :: ps, k, v => if p.1 = k then (p.1, v) :: ps else p :: dictSet ps k v

/-- Python dict lookup `d[k]`; `none` models a `KeyError`. -/
def dictGet? {α : Type} : List (String × α) → String → Option α
  | [], _ => none
  | p :: ps, k => if p.1 = k then some p.2 else dictGet? ps k

/-- Python `dict(pairs)`: fold dict assignment over the pairs. -/
def dictOfPairs {α : Type} (ps : List (String × α)) : List (String × α) :=
  ps.foldl (fun d p => dictSet d p.1 p.2) []

/-- Embedding of `NCNNWrapper.__ncnn_execute`.  `extractor` is the
per-sample extractor already holding its bound inputs.  For each requested
output name in order: call the extract method of the extractor; assert that
the returned status is 0, failing with the message
`"Failed to extract output : " + str(out) + "."` (note: the message renders
the returned mat, not the output name); on success store the mat in the
result dict. -/
def ncnnExecute (extractor : String → Int × Mat) :
    List String → List (String × Mat) → Except PyError (List (String × Mat))
  | [], result => .ok result
  | name :: names, result =>
    let r := extractor name
    if r.1 = 0 then ncnnExecute extractor names (dictSet result name r.2)
    else .error (.assertionError
      ("Failed to extract output : " ++ toString r.2 ++ "."))

/-- The validation loop of `forward`: for every input tensor after the
first, assert that its leading dimension equals the batch size and then
assert that its device type equals "cpu".  The first input tensor defines
the batch size and is itself never checked. -/
def validate : List Tensor → Nat → Except PyError Unit
  | [], _ => .ok ()
  | t :: ts, batchSize =>
    if t.data.length ≠ batchSize then
      .error (.assertionError "All tensors should have same batch size")
    else if t.device ≠ "cpu" then
      .error (.assertionError "NCNN only supports cpu device")
    else validate ts batchSize

/-- The input-binding loop of one sample: for every `(name, input_tensor)`
in the input dict, slice `input_tensor[batch_id]` (an `IndexError` when out
of range), convert it to a mat, and bind it under `name`. -/
def bindInputs : List (String × Tensor) → Nat →
    Except PyError (List (String × Mat))
  | [], _ => .ok []
  | p :: ps, j =>
    match p.2.data[j]? with
    | none => .error (.indexError "index out of bounds for dimension 0")
    | some mat =>
      match bindInputs ps j with
      | .error e => .error e
      | .ok rest => .ok ((p.1, mat) :: rest)

/-- The write-back loop of one sample: for each output name,
`outputs[name][batch_id] = torch.from_numpy(np.array(result[name]))` —
look the mat up in the execute result, look the slot list up in the
accumulator, and assign the slot at `batch_id`. -/
def setResultEntry (batchId : Nat) (result : List (String × Mat)) :
    List String → List (String × List (Option Mat)) →
    Except PyError (List (String × List (Option Mat)))
  | [], outputs => .ok outputs
  | name :: names, outputs =>
    match dictGet? result name with
    | none => .error (.keyError name)
    | some mat =>
      match dictGet? outputs name with
      | none => .error (.keyError name)
      | some slots =>
        if batchId < slots.length then
          setResultEntry batchId result names
            (dictSet outputs name (slots.set batchId (some mat)))
        else .error (.indexError "list assignment index out of range")

/-- One iteration of the batch loop of `forward`, after the fresh extractor
has been created: bind the sample slice of every input, run
`__ncnn_execute`, and write the per-sample results into the accumulator. -/
def runSample (extractF : List (String × Mat) → String → Int × Mat)
    (names : List String) (inputs : List (String × Tensor)) (batchId : Nat)
    (outputs : List (String × List (Option Mat))) :
    Except PyError (List (String × List (Option Mat))) :=
  match bindInputs inputs batchId with
  | .error e => .error e
  | .ok bound =>
    match ncnnExecute (extractF bound) names [] with
    | .error e => .error e
    | .ok result => setResultEntry batchId result names outputs

/-- The batch loop of `forward` over the sample indices, threading the
accumulator and counting how many extractors `self._net.create_extractor()`
has produced (the extractor is created at the top of each iteration, before
anything in that iteration can fail). -/
def runSamples (extractF : List (String × Mat) → String → Int × Mat)
    (names : List String) (inputs : List (String × Tensor)) :
    List Nat → List (String × List (Option Mat)) → Nat →
    Except PyError (List (String × List (Option Mat))) × Nat
  | [], outputs, count => (.ok outputs, count)
  | j :: js, outputs, count =>
    match runSample extractF names inputs j outputs with
    | .error e => (.error e, count + 1)
    | .ok outputs' => runSamples extractF names inputs js outputs' (count + 1)

/-- Sequence a list of optional values, failing on the first `none`. -/
def seqOptions {α : Type} : List (Option α) → Option (List α)
  | [] => some []
  | none :: _ => none
  | some a :: rest => (seqOptions rest).map (a :: ·)

/-- `torch.stack` on a list of per-sample tensors: raises a `RuntimeError`
on an empty list, stacks along a new leading dimension otherwise (the
stacked result of cpu per-sample tensors lives on the cpu). -/
def torchStack (slots : List (Option Mat)) : Except PyError Tensor :=
  if slots = [] then
    .error (.runtimeError "stack expects a non-empty TensorList")
  else
    match seqOptions slots with
    | none => .error (.typeError "expected Tensor as element in argument 0")
    | some mats => .ok ⟨"cpu", mats⟩

/-- The final loop of `forward`: `outputs[name] = torch.stack(outputs[name])`
for every accumulator entry, in dict order, raising on the first failure. -/
def stackOutputs :
    List (String × List (Option Mat)) → Except PyError (List (String × Tensor))
  | [] => .ok []
  | q :: qs =>
    match torchStack q.2 with
    | .error e => .error e
    | .ok t =>
      match stackOutputs qs with
      | .error e => .error e
      | .ok rest => .ok ((q.1, t) :: rest)

/-- The accumulator initialisation of `forward`:
`outputs = dict([name, [None] * batch_size] for name in output_names)`. -/
def initOutputs (names : List String) (batchSize : Nat) :
    List (String × List (Option Mat)) :=
  dictOfPairs (names.map (fun n => (n, List.replicate batchSize (none : Option Mat))))

/-- The wrapper state after construction: `output_names` is the resolved
output-name list stored by `BaseWrapper.__init__` into
`self._output_names`, and `net` is `self._net`.  Modelled from the spec:
`BaseWrapper` itself is not part of the sources in scope; per the
output-name-resolution section of the spec the base class stores the
resolved list verbatim and keeps it immutable for the wrapper lifetime. -/
structure NCNNWrapper where
  output_names : List String
  net : Net

/-- Result of one `forward` call: the returned mapping or the raised
exception, together with how many extractors were created during the call
(the observable side effect the fail-fast clauses of the spec speak about). -/
structure FwdResult where
  result : Except PyError (List (String × Tensor))
  extractorsCreated : Nat

/-- Decidable equality of call results, so that concrete runs of `forward`
can be checked by evaluation. -/
instance {ε α : Type} [DecidableEq ε] [DecidableEq α] :
    DecidableEq (Except ε α)
  | .error e, .error e' =>
    if h : e = e' then .isTrue (by rw [h]) else .isFalse (by simp [h])
  | .error _, .ok _ => .isFalse (by simp)
  | .ok _, .error _ => .isFalse (by simp)
  | .ok a, .ok a' =>
    if h : a = a' then .isTrue (by rw [h]) else .isFalse (by simp [h])

instance : DecidableEq FwdResult := fun r r' =>
  if h : r.result = r'.result ∧ r.extractorsCreated = r'.extractorsCreated then
    .isTrue (by cases r; cases r'; simp_all)
  else .isFalse (by cases r; cases r'; simp_all)

/-- The post-validation part of `forward`: build the accumulator, run the
per-sample loop over `range(batch_size)`, and stack the accumulator into
the returned dict. -/
def forwardRun (w : NCNNWrapper) (inputs : List (String × Tensor))
    (batchSize : Nat) : FwdResult :=
  match runSamples w.net.extract w.output_names inputs
      (List.range batchSize) (initOutputs w.output_names batchSize) 0 with
  | (.error e, count) => ⟨.error e, count⟩
  | (.ok outputs, count) => ⟨stackOutputs outputs, count⟩

/-- The validation stage of `forward`: run the assertion loop over every
input tensor after the first, then hand over to the execution stage. -/
def forwardValid (w : NCNNWrapper) (inputs : List (String × Tensor))
    (batchSize : Nat) (rest : List Tensor) : FwdResult :=
  match validate rest batchSize with
  | .error e => ⟨.error e, 0⟩
  | .ok _ => forwardRun w inputs batchSize

/-- Embedding of `NCNNWrapper.forward`.  In source order: take the input
tensors (`list(inputs.values())`, an `IndexError` on an empty dict), read
the batch size off the first tensor, validate the remaining tensors, build
the accumulator, run the per-sample loop, and stack the accumulator into
the returned dict. -/
def forward (w : NCNNWrapper) (inputs : List (String × Tensor)) : FwdResult :=
  match inputs.map Prod.snd with
  | [] => ⟨.error (.indexError "list index out of range"), 0⟩
  | t0 :: rest => forwardValid w inputs t0.data.length rest

/-- Embedding of the output-name resolution in `NCNNWrapper.__init__`: when
`output_names` is `None`, `assert hasattr(self._net, 'output_names')` (a
bare assert, so the assertion message is empty) and take
`self._net.output_names()`; then hand the resolved list to
`super().__init__` which stores it verbatim. -/
def construct (net : Net) (output_names : Option (List String)) :
    Except PyError NCNNWrapper :=
  match output_names with
  | some names => .ok ⟨names, net⟩
  | none =>
    match net.outputNamesAttr with
    | some names => .ok ⟨names, net⟩
    | none => .error (.assertionError "")

/-- The per-sample binding list that `forward` hands to the extractor of
sample `j`, described as a total function (meaningful when `j` is in range
for every input tensor). -/
def boundAt (inputs : List (String × Tensor)) (j : Nat) : List (String × Mat) :=
  inputs.map (fun p => (p.1, p.2.data.getD j []))

/-! ### Association-list (Python dict) lemmas -/

/-- The keys of a dict, in order. -/
def keysOf {α : Type} (d : List (String × α)) : List String :=
  d.map Prod.fst

/-- A dict built by repeated assignment has pairwise distinct keys. -/
def keysNodup {α : Type} (d : List (String × α)) : Prop :=
  (keysOf d).Nodup

theorem keysOf_cons {α : Type} (p : String × α) (ps : List (String × α)) :
    keysOf (p :: ps) = p.1 :: keysOf ps := rfl

theorem keysNodup_cons {α : Type} (p : String × α)
    (ps : List (String × α)) :
    keysNodup (p :: ps) ↔ p.1 ∉ keysOf ps ∧ keysNodup ps := by
  simp [keysNodup, keysOf_cons, List.nodup_cons]

theorem dictGet?_dictSet {α : Type} (d : List (String × α)) (k n : String)
    (v : α) :
    dictGet? (dictSet d k v) n = if n = k then some v else dictGet? d n := by
  induction d with
  | nil =>
    by_cases h : n = k
    · subst h; simp [dictSet, dictGet?]
    · have h' : ¬ k = n := fun hh => h hh.symm
      simp [dictSet, dictGet?, h, h']
  | cons p ps ih =>
    by_cases hpk : p.1 = k
    · by_cases hpn : p.1 = n
      · have hnk : n = k := hpn.symm.trans hpk
        simp [dictSet, dictGet?, hpk, hpn, hnk]
      · have hnk : ¬ n = k := fun h => hpn (hpk.trans h.symm)
        have hkn : ¬ k = n := fun h => hnk h.symm
        simp [dictSet, dictGet?, hpk, hpn, hnk, hkn]
    · by_cases hpn : p.1 = n
      · have hnk : ¬ n = k := fun h => hpk (hpn.trans h)
        simp [dictSet, dictGet?, hpk, hpn, hnk]
      · simp [dictSet, dictGet?, hpk, hpn, ih]

theorem mem_keysOf_dictSet {α : Type} (d : List (String × α)) (k n : String)
    (v : α) :
    n ∈ keysOf (dictSet d k v) ↔ n = k ∨ n ∈ keysOf d := by
  induction d with
  | nil => simp [dictSet, keysOf]
  | cons p ps ih =>
    by_cases hpk : p.1 = k
    · rw [dictSet, if_pos hpk, keysOf_cons, keysOf_cons]
      simp only [List.mem_cons]
      rw [← hpk]
      tauto
    · rw [dictSet, if_neg hpk, keysOf_cons, keysOf_cons]
      simp only [List.mem_cons]
      rw [ih]
      tauto

theorem keysNodup_dictSet {α : Type} (d : List (String × α)) (k : String)
    (v : α) (h : keysNodup d) : keysNodup (dictSet d k v) := by
  induction d with
  | nil => simp [dictSet, keysNodup, keysOf]
  | cons p ps ih =>
    rcases (keysNodup_cons p ps).1 h with ⟨h1, h2⟩
    by_cases hpk : p.1 = k
    · rw [dictSet, if_pos hpk]
      exact (keysNodup_cons _ _).2 ⟨h1, h2⟩
    · rw [dictSet, if_neg hpk]
      refine (keysNodup_cons _ _).2 ⟨?_, ih h2⟩
      intro hmem
      rcases (mem_keysOf_dictSet ps k p.1 v).1 hmem with h' | h'
      · exact hpk h'
      · exact h1 h'

theorem dictGet?_isSome_iff {α : Type} (d : List (String × α)) (n : String) :
    (dictGet? d n).isSome ↔ n ∈ keysOf d := by
  induction d with
  | nil => simp [dictGet?, keysOf]
  | cons p ps ih =>
    rw [keysOf_cons, List.mem_cons]
    by_cases hpn : p.1 = n
    · simp [dictGet?, hpn]
    · have hnp : ¬ n = p.1 := fun h => hpn h.symm
      simp [dictGet?, hpn, hnp, ih]

theorem dictGet?_of_mem {α : Type} (d : List (String × α))
    (q : String × α) (hnd : keysNodup d) (hq : q ∈ d) :
    dictGet? d q.1 = some q.2 := by
  induction d with
  | nil => cases hq
  | cons p ps ih =>
    rcases (keysNodup_cons p ps).1 hnd with ⟨h1, h2⟩
    rcases List.mem_cons.1 hq with h | h
    · subst h; simp [dictGet?]
    · have hne : ¬ p.1 = q.1 := by
        intro he
        exact h1 (he ▸ List.mem_map_of_mem Prod.fst h)
      simp [dictGet?, hne, ih h2 h]

theorem foldl_dictSet_const_get {α : Type} (names : List String) (c : α) :
    ∀ (d0 : List (String × α)) (n : String),
      dictGet? ((names.map (fun m => (m, c))).foldl
          (fun d p => dictSet d p.1 p.2) d0) n
        = if n ∈ names then some c else dictGet? d0 n := by
  induction names with
  | nil => intro d0 n; simp
  | cons nm names ih =>
    intro d0 n
    simp only [List.map_cons, List.foldl_cons, ih, dictGet?_dictSet]
    by_cases h1 : n ∈ names
    · simp [h1]
    · by_cases h2 : n = nm <;> simp [h1, h2]

theorem foldl_dictSet_keysNodup {α : Type} (ps : List (String × α)) :
    ∀ (d0 : List (String × α)), keysNodup d0 →
      keysNodup (ps.foldl (fun d p => dictSet d p.1 p.2) d0) := by
  induction ps with
  | nil => intro d0 h; exact h
  | cons p ps ih =>
    intro d0 h
    exact ih _ (keysNodup_dictSet d0 p.1 p.2 h)

theorem dictSet_ne_nil {α : Type} (d : List (String × α)) (k : String)
    (v : α) : dictSet d k v ≠ [] := by
  cases d with
  | nil => simp [dictSet]
  | cons p ps =>
    by_cases h : p.1 = k <;> simp [dictSet, h]

theorem foldl_dictSet_ne_nil {α : Type} (ps : List (String × α)) :
    ∀ (d0 : List (String × α)), d0 ≠ [] →
      ps.foldl (fun d p => dictSet d p.1 p.2) d0 ≠ [] := by
  induction ps with
  | nil => intro d0 h; exact h
  | cons p ps ih =>
    intro d0 _
    exact ih _ (dictSet_ne_nil d0 p.1 p.2)

theorem mem_dictSet_val {α : Type} (d : List (String × α)) (k : String)
    (v : α) (q : String × α) (hq : q ∈ dictSet d k v) :
    q.2 = v ∨ q ∈ d := by
  induction d with
  | nil =>
    simp [dictSet] at hq
    left; rw [hq]
  | cons p ps ih =>
    by_cases h : p.1 = k
    · simp only [dictSet, if_pos h, List.mem_cons] at hq
      rcases hq with hq | hq
      · left; rw [hq]
      · right; exact List.mem_cons_of_mem _ hq
    · simp only [dictSet, if_neg h, List.mem_cons] at hq
      rcases hq with hq | hq
      · right; exact hq ▸ List.mem_cons_self _ _
      · rcases ih hq with h' | h'
        · left; exact h'
        · right; exact List.mem_cons_of_mem _ h'

theorem mem_foldl_dictSet_const {α : Type} (names : List String) (c : α) :
    ∀ (d0 : List (String × α)), (∀ q ∈ d0, q.2 = c) →
      ∀ q ∈ (names.map (fun m => (m, c))).foldl
          (fun d p => dictSet d p.1 p.2) d0, q.2 = c := by
  induction names with
  | nil => intro d0 h; exact h
  | cons nm names ih =>
    intro d0 h
    refine ih _ ?_
    intro q hq
    rcases mem_dictSet_val d0 nm c q hq with h' | h'
    · exact h'
    · exact h q h'

/-! ### Accumulator initialisation lemmas -/

theorem initOutputs_get (names : List String) (bs : Nat) (n : String) :
    dictGet? (initOutputs names bs) n
      = if n ∈ names then some (List.replicate bs (none : Option Mat))
        else none := by
  simpa [initOutputs, dictOfPairs, dictGet?] using
    foldl_dictSet_const_get names (List.replicate bs (none : Option Mat)) [] n

theorem initOutputs_keysNodup (names : List String) (bs : Nat) :
    keysNodup (initOutputs names bs) := by
  exact foldl_dictSet_keysNodup _ [] (by simp [keysNodup, keysOf])

theorem initOutputs_ne_nil (names : List String) (bs : Nat)
    (h : names ≠ []) : initOutputs names bs ≠ [] := by
  cases names with
  | nil => exact absurd rfl h
  | cons nm names =>
    simp only [initOutputs, dictOfPairs, List.map_cons, List.foldl_cons]
    exact foldl_dictSet_ne_nil _ _ (dictSet_ne_nil [] nm _)

theorem initOutputs_val (names : List String) (bs : Nat) :
    ∀ q ∈ initOutputs names bs,
      q.2 = List.replicate bs (none : Option Mat) := by
  exact mem_foldl_dictSet_const names _ [] (by simp)

/-! ### Validation lemmas -/

theorem validate_ok_iff (ts : List Tensor) (bs : Nat) :
    validate ts bs = .ok ()
      ↔ ∀ t ∈ ts, t.data.length = bs ∧ t.device = "cpu" := by
  induction ts with
  | nil => simp [validate]
  | cons t ts ih =>
    by_cases h1 : t.data.length = bs
    · by_cases h2 : t.device = "cpu"
      · simp [validate, h1, h2, ih]
      · simp [validate, h1, h2]
    · simp [validate, h1]

theorem validate_cases (ts : List Tensor) (bs : Nat) :
    validate ts bs = .ok ()
      ∨ ∃ msg, validate ts bs = .error (.assertionError msg) := by
  induction ts with
  | nil => left; rfl
  | cons t ts ih =>
    by_cases h1 : t.data.length = bs
    · by_cases h2 : t.device = "cpu"
      · simpa [validate, h1, h2] using ih
      · right
        refine ⟨"NCNN only supports cpu device", ?_⟩
        simp [validate, h1, h2]
    · right
      refine ⟨"All tensors should have same batch size", ?_⟩
      simp [validate, h1]

theorem validate_error (ts : List Tensor) (bs : Nat)
    (h : ∃ t ∈ ts, t.data.length ≠ bs ∨ t.device ≠ "cpu") :
    ∃ msg, validate ts bs = .error (.assertionError msg) := by
  rcases validate_cases ts bs with hok | herr
  · exfalso
    rcases h with ⟨t, ht, hbad⟩
    rcases (validate_ok_iff ts bs).1 hok t ht with ⟨h1, h2⟩
    rcases hbad with hbad | hbad
    · exact hbad h1
    · exact hbad h2
  · exact herr

/-! ### `__ncnn_execute` lemmas -/

theorem ncnnExecute_ok_char (extractor : String → Int × Mat)
    (ns : List String) (hok : ∀ n ∈ ns, (extractor n).1 = 0) :
    ∀ r0, ∃ r, ncnnExecute extractor ns r0 = .ok r
      ∧ ∀ n, dictGet? r n
          = if n ∈ ns then some (extractor n).2 else dictGet? r0 n := by
  induction ns with
  | nil =>
    intro r0
    exact ⟨r0, rfl, by simp⟩
  | cons nm ns ih =>
    intro r0
    have hnm : (extractor nm).1 = 0 := hok nm (List.mem_cons_self _ _)
    have hok' : ∀ n ∈ ns, (extractor n).1 = 0 := fun n hn =>
      hok n (List.mem_cons_of_mem _ hn)
    rcases ih hok' (dictSet r0 nm (extractor nm).2) with ⟨r, hr, hchar⟩
    refine ⟨r, ?_, ?_⟩
    · rw [ncnnExecute]
      simp only [hnm, if_pos rfl]
      exact hr
    · intro n
      rw [hchar n, dictGet?_dictSet]
      by_cases h1 : n ∈ ns
      · simp [h1, List.mem_cons]
      · by_cases h2 : n = nm <;> simp [h1, h2, List.mem_cons]

theorem ncnnExecute_err (extractor : String → Int × Mat)
    (ns : List String) (r0 : List (String × Mat))
    (h : ∃ n ∈ ns, (extractor n).1 ≠ 0) :
    ∃ out : Mat, ncnnExecute extractor ns r0
      = .error (.assertionError
          ("Failed to extract output : " ++ toString out ++ ".")) := by
  induction ns generalizing r0 with
  | nil => rcases h with ⟨n, hn, _⟩; cases hn
  | cons nm ns ih =>
    by_cases hnm : (extractor nm).1 = 0
    · have h' : ∃ n ∈ ns, (extractor n).1 ≠ 0 := by
        rcases h with ⟨n, hn, hbad⟩
        rcases List.mem_cons.1 hn with h0 | h0
        · exact absurd (h0 ▸ hnm) hbad
        · exact ⟨n, h0, hbad⟩
      rcases ih (dictSet r0 nm (extractor nm).2) h' with ⟨out, hout⟩
      refine ⟨out, ?_⟩
      rw [ncnnExecute]
      simp only [hnm, if_pos rfl]
      exact hout
    · refine ⟨(extractor nm).2, ?_⟩
      rw [ncnnExecute]
      simp only [if_neg hnm]

theorem ncnnExecute_ok_isSome (extractor : String → Int × Mat)
    (ns : List String) :
    ∀ r0 r, ncnnExecute extractor ns r0 = .ok r →
      ∀ n, ((dictGet? r0 n).isSome ∨ n ∈ ns) → (dictGet? r n).isSome := by
  induction ns with
  | nil =>
    intro r0 r hr n hn
    cases hr
    rcases hn with hn | hn
    · exact hn
    · cases hn
  | cons nm ns ih =>
    intro r0 r hr n hn
    rw [ncnnExecute] at hr
    by_cases hnm : (extractor nm).1 = 0
    · simp only [hnm, if_pos rfl] at hr
      refine ih _ r hr n ?_
      rcases hn with hn | hn
      · left
        rw [dictGet?_dictSet]
        by_cases h2 : n = nm <;> simp [h2, hn]
      · rcases List.mem_cons.1 hn with h0 | h0
        · left
          rw [dictGet?_dictSet, if_pos h0]
          simp
        · right; exact h0
    · simp only [if_neg hnm] at hr
      cases hr

/-! ### Input-binding lemmas -/

theorem bindInputs_ok (inputs : List (String × Tensor)) (j : Nat)
    (h : ∀ p ∈ inputs, j < p.2.data.length) :
    bindInputs inputs j = .ok (boundAt inputs j) := by
  induction inputs with
  | nil => rfl
  | cons p ps ih =>
    have hp : j < p.2.data.length := h p (List.mem_cons_self _ _)
    have hrest : bindInputs ps j = .ok (boundAt ps j) :=
      ih (fun q hq => h q (List.mem_cons_of_mem _ hq))
    rw [bindInputs, List.getElem?_eq_getElem hp, hrest]
    simp [boundAt, List.getD, List.getElem?_eq_getElem hp]

/-! ### Accumulator slot description -/

/-- The slot list held by the output accumulator under one output name after
the first `k` samples of a batch of size `bs` have been processed: slot `j`
holds the mat extracted for sample `j` when `j < k` and is still empty
otherwise. -/
def SlotsAt (extractF : List (String × Mat) → String → Int × Mat)
    (inputs : List (String × Tensor)) (bs k : Nat) (n : String) :
    List (Option Mat) :=
  (List.range bs).map
    (fun j => if j < k then some (extractF (boundAt inputs j) n).2 else none)

theorem SlotsAt_zero (extractF : List (String × Mat) → String → Int × Mat)
    (inputs : List (String × Tensor)) (bs : Nat) (n : String) :
    SlotsAt extractF inputs bs 0 n
      = List.replicate bs (none : Option Mat) := by
  simp [SlotsAt, List.map_const']

theorem SlotsAt_length (extractF : List (String × Mat) → String → Int × Mat)
    (inputs : List (String × Tensor)) (bs k : Nat) (n : String) :
    (SlotsAt extractF inputs bs k n).length = bs := by
  simp [SlotsAt]

theorem SlotsAt_last (extractF : List (String × Mat) → String → Int × Mat)
    (inputs : List (String × Tensor)) (bs : Nat) (n : String) :
    SlotsAt extractF inputs bs bs n
      = (List.range bs).map
          (fun j => some (extractF (boundAt inputs j) n).2) := by
  apply List.map_congr_left
  intro j hj
  rw [if_pos (List.mem_range.1 hj)]

theorem SlotsAt_step (extractF : List (String × Mat) → String → Int × Mat)
    (inputs : List (String × Tensor)) (bs k : Nat) (n : String)
    (hk : k < bs) :
    (SlotsAt extractF inputs bs k n).set k
        (some (extractF (boundAt inputs k) n).2)
      = SlotsAt extractF inputs bs (k + 1) n := by
  apply List.ext_getElem?
  intro i
  by_cases hi : i < bs
  · rw [SlotsAt, SlotsAt, List.getElem?_set]
    simp only [List.length_map, List.length_range, List.getElem?_map,
      List.getElem?_range hi, Option.map_some']
    by_cases hki : k = i
    · subst hki
      simp [hk, Nat.lt_succ_self]
    · have : i < k ↔ i < k + 1 := by omega
      simp [hki, this]
  · have h1 : ((SlotsAt extractF inputs bs k n).set k
        (some (extractF (boundAt inputs k) n).2)).length ≤ i := by
      rw [List.length_set, SlotsAt_length]; omega
    have h2 : (SlotsAt extractF inputs bs (k + 1) n).length ≤ i := by
      rw [SlotsAt_length]; omega
    rw [List.getElem?_eq_none h1, List.getElem?_eq_none h2]

/-! ### Result write-back lemmas -/

theorem setResultEntry_char (j bs : Nat) (result : List (String × Mat))
    (names : List String) (matFor : String → Mat) :
    ∀ (ns : List String) (d : List (String × List (Option Mat)))
      (S : String → List (Option Mat)),
      (∀ n ∈ ns, n ∈ names) →
      (∀ n ∈ ns, dictGet? result n = some (matFor n)) →
      keysNodup d →
      (∀ n, dictGet? d n = if n ∈ names then some (S n) else none) →
      (∀ n, (S n).length = bs) →
      j < bs →
      ∃ d', setResultEntry j result ns d = .ok d'
        ∧ keysNodup d'
        ∧ (∀ n, dictGet? d' n
            = if n ∈ names then
                some (if n ∈ ns then (S n).set j (some (matFor n)) else S n)
              else none) := by
  intro ns
  induction ns with
  | nil =>
    intro d S _ _ hnd hchar _ _
    refine ⟨d, rfl, hnd, ?_⟩
    intro n
    simpa using hchar n
  | cons nm ns ih =>
    intro d S hsub hres hnd hchar hlen hj
    have hm : nm ∈ names := hsub nm (List.mem_cons_self _ _)
    have hr : dictGet? result nm = some (matFor nm) :=
      hres nm (List.mem_cons_self _ _)
    have hd : dictGet? d nm = some (S nm) := by rw [hchar nm, if_pos hm]
    have hj' : j < (S nm).length := by rw [hlen nm]; exact hj
    have hstep : setResultEntry j result (nm :: ns) d
        = setResultEntry j result ns
            (dictSet d nm ((S nm).set j (some (matFor nm)))) := by
      rw [setResultEntry, hr, hd]
      simp only [if_pos hj']
    rcases ih (dictSet d nm ((S nm).set j (some (matFor nm))))
        (fun n => if n = nm then (S nm).set j (some (matFor nm)) else S n)
        (fun n hn => hsub n (List.mem_cons_of_mem _ hn))
        (fun n hn => hres n (List.mem_cons_of_mem _ hn))
        (keysNodup_dictSet d nm _ hnd)
        (by
          intro n
          try dsimp only
          rw [dictGet?_dictSet]
          by_cases h2 : n = nm
          · rw [if_pos h2, h2, if_pos hm, if_pos rfl]
          · rw [if_neg h2, hchar n]
            by_cases h1 : n ∈ names
            · rw [if_pos h1, if_pos h1, if_neg h2]
            · rw [if_neg h1, if_neg h1])
        (by
          intro n
          try dsimp only
          by_cases h2 : n = nm
          · rw [if_pos h2, List.length_set]; exact hlen nm
          · rw [if_neg h2]; exact hlen n)
        hj with ⟨d', hok, hnd', hchar'⟩
    refine ⟨d', hstep.trans hok, hnd', ?_⟩
    intro n
    rw [hchar' n]
    try dsimp only
    by_cases h1 : n ∈ names
    · rw [if_pos h1, if_pos h1]
      congr 1
      by_cases h3 : n ∈ ns
      · rw [if_pos h3, if_pos (List.mem_cons_of_mem _ h3)]
        by_cases h2 : n = nm
        · rw [if_pos h2, h2, List.set_set]
        · rw [if_neg h2]
      · rw [if_neg h3]
        by_cases h2 : n = nm
        · rw [if_pos h2, h2, if_pos (List.mem_cons_self _ _)]
        · rw [if_neg h2, if_neg (by
            intro hmem
            rcases List.mem_cons.1 hmem with h' | h'
            · exact h2 h'
            · exact h3 h')]
    · rw [if_neg h1, if_neg h1]

theorem setResultEntry_pres (j : Nat) (result : List (String × Mat)) :
    ∀ (ns : List String) (d d' : List (String × List (Option Mat))),
      setResultEntry j result ns d = .ok d' →
      (∀ n, (dictGet? d' n).isSome ↔ (dictGet? d n).isSome)
      ∧ (∀ n s', dictGet? d' n = some s' →
          ∃ s, dictGet? d n = some s ∧ s'.length = s.length) := by
  intro ns
  induction ns with
  | nil =>
    intro d d' h
    cases h
    exact ⟨fun n => Iff.rfl, fun n s' hs' => ⟨s', hs', rfl⟩⟩
  | cons nm ns ih =>
    intro d d' h
    rw [setResultEntry] at h
    split at h
    · exact Except.noConfusion h
    · rename_i mat hres
      split at h
      · exact Except.noConfusion h
      · rename_i slots hd
        split at h
        · rcases ih _ _ h with ⟨hiso, hlen⟩
          constructor
          · intro n
            rw [hiso n, dictGet?_dictSet]
            by_cases h2 : n = nm
            · rw [if_pos h2, h2, hd]; simp
            · rw [if_neg h2]
          · intro n s' hs'
            rcases hlen n s' hs' with ⟨s, hs, hlen'⟩
            rw [dictGet?_dictSet] at hs
            by_cases h2 : n = nm
            · rw [if_pos h2] at hs
              injection hs with hs
              refine ⟨slots, by rw [h2]; exact hd, ?_⟩
              rw [hlen', ← hs, List.length_set]
            · rw [if_neg h2] at hs
              exact ⟨s, hs, hlen'⟩
        · exact Except.noConfusion h

theorem setResultEntry_ok_winv (j bs : Nat) (result : List (String × Mat))
    (names : List String) :
    ∀ (ns : List String) (d : List (String × List (Option Mat))),
      (∀ n ∈ ns, n ∈ names) →
      (∀ n ∈ ns, (dictGet? result n).isSome) →
      (∀ n, (dictGet? d n).isSome ↔ n ∈ names) →
      (∀ n s, dictGet? d n = some s → s.length = bs) →
      j < bs →
      ∃ d', setResultEntry j result ns d = .ok d'
        ∧ (∀ n, (dictGet? d' n).isSome ↔ n ∈ names)
        ∧ (∀ n s, dictGet? d' n = some s → s.length = bs) := by
  intro ns
  induction ns with
  | nil =>
    intro d _ _ hiso hlen _
    exact ⟨d, rfl, hiso, hlen⟩
  | cons nm ns ih =>
    intro d hsub hres hiso hlen hj
    have hm : nm ∈ names := hsub nm (List.mem_cons_self _ _)
    rcases Option.isSome_iff_exists.1 (hres nm (List.mem_cons_self _ _))
      with ⟨mat, hr⟩
    rcases Option.isSome_iff_exists.1 ((hiso nm).2 hm) with ⟨slots, hd⟩
    have hj' : j < slots.length := by rw [hlen nm slots hd]; exact hj
    have hstep : setResultEntry j result (nm :: ns) d
        = setResultEntry j result ns
            (dictSet d nm (slots.set j (some mat))) := by
      rw [setResultEntry, hr, hd]
      simp only [if_pos hj']
    rcases ih (dictSet d nm (slots.set j (some mat)))
        (fun n hn => hsub n (List.mem_cons_of_mem _ hn))
        (fun n hn => hres n (List.mem_cons_of_mem _ hn))
        (by
          intro n
          rw [dictGet?_dictSet]
          by_cases h2 : n = nm
          · simp [h2, hm]
          · rw [if_neg h2]; exact hiso n)
        (by
          intro n s hs
          rw [dictGet?_dictSet] at hs
          by_cases h2 : n = nm
          · rw [if_pos h2] at hs
            injection hs with hs
            rw [← hs, List.length_set]
            exact hlen nm slots hd
          · rw [if_neg h2] at hs
            exact hlen n s hs)
        hj with ⟨d', hok, hiso', hlen'⟩
    exact ⟨d', hstep.trans hok, hiso', hlen'⟩

/-! ### Batch-loop lemmas -/

theorem runSamples_ok_char
    (extractF : List (String × Mat) → String → Int × Mat)
    (names : List String) (inputs : List (String × Tensor)) (bs : Nat)
    (hinp : ∀ p ∈ inputs, p.2.data.length = bs)
    (hok : ∀ j, j < bs → ∀ n ∈ names,
      (extractF (boundAt inputs j) n).1 = 0) :
    ∀ (c k : Nat) (d : List (String × List (Option Mat))) (cnt : Nat),
      k + c = bs →
      keysNodup d →
      (∀ n, dictGet? d n
        = if n ∈ names then some (SlotsAt extractF inputs bs k n) else none) →
      ∃ d', runSamples extractF names inputs (List.range' k c) d cnt
          = (.ok d', cnt + c)
        ∧ keysNodup d'
        ∧ (∀ n, dictGet? d' n
            = if n ∈ names then some (SlotsAt extractF inputs bs bs n)
              else none) := by
  intro c
  induction c with
  | zero =>
    intro k d cnt hk hnd hchar
    have hkbs : k = bs := by omega
    subst hkbs
    exact ⟨d, by simp [runSamples, List.range'], hnd, hchar⟩
  | succ c ih =>
    intro k d cnt hk hnd hchar
    have hkbs : k < bs := by omega
    have hbind : bindInputs inputs k = .ok (boundAt inputs k) :=
      bindInputs_ok inputs k (fun p hp => by rw [hinp p hp]; exact hkbs)
    rcases ncnnExecute_ok_char (extractF (boundAt inputs k)) names
      (hok k hkbs) [] with ⟨r, hexec, hrchar⟩
    have hres : ∀ n ∈ names,
        dictGet? r n = some ((extractF (boundAt inputs k) n).2) := by
      intro n hn
      rw [hrchar n, if_pos hn]
    rcases setResultEntry_char k bs r names
        (fun n => (extractF (boundAt inputs k) n).2) names d
        (SlotsAt extractF inputs bs k)
        (fun n hn => hn) hres hnd hchar
        (fun n => SlotsAt_length extractF inputs bs k n) hkbs
      with ⟨d1, hsre, hnd1, hchar1⟩
    have hchar1' : ∀ n, dictGet? d1 n
        = if n ∈ names then some (SlotsAt extractF inputs bs (k + 1) n)
          else none := by
      intro n
      rw [hchar1 n]
      by_cases h1 : n ∈ names
      · rw [if_pos h1, if_pos h1, if_pos h1,
          SlotsAt_step extractF inputs bs k n hkbs]
      · rw [if_neg h1, if_neg h1]
    have hrs : runSample extractF names inputs k d = .ok d1 := by
      simp only [runSample, hbind, hexec]
      exact hsre
    rcases ih (k + 1) d1 (cnt + 1) (by omega) hnd1 hchar1'
      with ⟨d', hloop, hnd', hchar'⟩
    refine ⟨d', ?_, hnd', hchar'⟩
    simp only [List.range'_succ, runSamples, hrs, hloop]
    rw [show cnt + 1 + c = cnt + (c + 1) from by omega]

theorem runSamples_err
    (extractF : List (String × Mat) → String → Int × Mat)
    (names : List String) (inputs : List (String × Tensor)) (bs : Nat)
    (hinp : ∀ p ∈ inputs, p.2.data.length = bs) :
    ∀ (ids : List Nat) (d : List (String × List (Option Mat))) (cnt : Nat),
      (∀ i ∈ ids, i < bs) →
      (∀ n, (dictGet? d n).isSome ↔ n ∈ names) →
      (∀ n s, dictGet? d n = some s → s.length = bs) →
      (∃ j ∈ ids, ∃ n ∈ names, (extractF (boundAt inputs j) n).1 ≠ 0) →
      ∃ out : Mat, ∃ cnt' : Nat,
        runSamples extractF names inputs ids d cnt
          = (.error (.assertionError
              ("Failed to extract output : " ++ toString out ++ ".")),
             cnt') := by
  intro ids
  induction ids with
  | nil =>
    intro d cnt _ _ _ hbad
    rcases hbad with ⟨j, hj, _⟩
    cases hj
  | cons k ids ih =>
    intro d cnt hlt hiso hlen hbad
    have hkbs : k < bs := hlt k (List.mem_cons_self _ _)
    have hbind : bindInputs inputs k = .ok (boundAt inputs k) :=
      bindInputs_ok inputs k (fun p hp => by rw [hinp p hp]; exact hkbs)
    by_cases hfail : ∃ n ∈ names, (extractF (boundAt inputs k) n).1 ≠ 0
    · rcases ncnnExecute_err (extractF (boundAt inputs k)) names [] hfail
        with ⟨out, herr⟩
      refine ⟨out, cnt + 1, ?_⟩
      simp only [runSamples, runSample, hbind, herr]
    · push_neg at hfail
      rcases ncnnExecute_ok_char (extractF (boundAt inputs k)) names hfail []
        with ⟨r, hexec, hrchar⟩
      have hres : ∀ n ∈ names, (dictGet? r n).isSome := by
        intro n hn
        rw [hrchar n, if_pos hn]
        rfl
      rcases setResultEntry_ok_winv k bs r names names d
          (fun n hn => hn) hres hiso hlen hkbs
        with ⟨d1, hsre, hiso1, hlen1⟩
      have hrs : runSample extractF names inputs k d = .ok d1 := by
        simp only [runSample, hbind, hexec]
        exact hsre
      have hbad' : ∃ j ∈ ids, ∃ n ∈ names,
          (extractF (boundAt inputs j) n).1 ≠ 0 := by
        rcases hbad with ⟨j, hj, n, hn, hne⟩
        rcases List.mem_cons.1 hj with h0 | h0
        · rw [h0] at hne
          exact absurd (hfail n hn) hne
        · exact ⟨j, h0, n, hn, hne⟩
      rcases ih d1 (cnt + 1) (fun i hi => hlt i (List.mem_cons_of_mem _ hi))
        hiso1 hlen1 hbad' with ⟨out, cnt', hloop⟩
      refine ⟨out, cnt', ?_⟩
      simp only [runSamples, hrs]
      exact hloop

theorem runSamples_ok_pres
    (extractF : List (String × Mat) → String → Int × Mat)
    (names : List String) (inputs : List (String × Tensor)) :
    ∀ (ids : List Nat) (d : List (String × List (Option Mat))) (cnt : Nat)
      (d' : List (String × List (Option Mat))) (cnt' : Nat),
      runSamples extractF names inputs ids d cnt = (.ok d', cnt') →
      ∀ n s', dictGet? d' n = some s' →
        ∃ s, dictGet? d n = some s ∧ s'.length = s.length := by
  intro ids
  induction ids with
  | nil =>
    intro d cnt d' cnt' h n s' hs'
    rw [runSamples] at h
    simp only [Prod.mk.injEq, Except.ok.injEq] at h
    rcases h with ⟨h1, _⟩
    subst h1
    exact ⟨s', hs', rfl⟩
  | cons k ids ih =>
    intro d cnt d' cnt' h n s' hs'
    rw [runSamples] at h
    split at h
    · simp at h
    · rename_i d1 hrs1
      rcases ih d1 (cnt + 1) d' cnt' h n s' hs' with ⟨s1, hs1, hlen1⟩
      rw [runSample] at hrs1
      split at hrs1
      · exact Except.noConfusion hrs1
      · rename_i bound hbound
        split at hrs1
        · exact Except.noConfusion hrs1
        · rename_i r hexec
          rcases (setResultEntry_pres k r names d d1 hrs1).2 n s1 hs1
            with ⟨s, hs, hlen2⟩
          exact ⟨s, hs, by rw [hlen1, hlen2]⟩

/-! ### Stacking lemmas -/

theorem seqOptions_map_some {α : Type} (l : List α) :
    seqOptions (l.map some) = some l := by
  induction l with
  | nil => rfl
  | cons a l ih => simp [seqOptions, ih]

theorem seqOptions_length {α : Type} :
    ∀ (s : List (Option α)) (l : List α),
      seqOptions s = some l → l.length = s.length := by
  intro s
  induction s with
  | nil =>
    intro l h
    rw [seqOptions] at h
    injection h with h
    subst h
    rfl
  | cons o s ih =>
    intro l h
    cases o with
    | none => exact Option.noConfusion h
    | some a =>
      rw [seqOptions] at h
      rcases ho : seqOptions s with _ | l'
      · rw [ho] at h
        exact Option.noConfusion h
      · rw [ho] at h
        injection h with h
        subst h
        simp [ih l' ho]

theorem torchStack_map_some (mats : List Mat) (hne : mats ≠ []) :
    torchStack (mats.map some) = .ok ⟨"cpu", mats⟩ := by
  rw [torchStack, if_neg (by simpa using hne), seqOptions_map_some]

theorem torchStack_ok_length (slots : List (Option Mat)) (t : Tensor)
    (h : torchStack slots = .ok t) : t.data.length = slots.length := by
  rw [torchStack] at h
  split at h
  · exact Except.noConfusion h
  · split at h
    · exact Except.noConfusion h
    · rename_i mats hseq
      injection h with h
      subst h
      exact seqOptions_length slots mats hseq

theorem stackOutputs_ok_map (T : String → Tensor) :
    ∀ (d : List (String × List (Option Mat))),
      (∀ q ∈ d, torchStack q.2 = .ok (T q.1)) →
      stackOutputs d = .ok (d.map (fun q => (q.1, T q.1))) := by
  intro d
  induction d with
  | nil => intro _; rfl
  | cons q qs ih =>
    intro h
    simp only [stackOutputs, h q (List.mem_cons_self _ _),
      ih (fun p hp => h p (List.mem_cons_of_mem _ hp)), List.map_cons]

theorem dictGet?_mapVal (T : String → Tensor) :
    ∀ (d : List (String × List (Option Mat))) (n : String),
      dictGet? (d.map (fun q => (q.1, T q.1))) n
        = if (dictGet? d n).isSome then some (T n) else none := by
  intro d
  induction d with
  | nil => intro n; simp [dictGet?]
  | cons q qs ih =>
    intro n
    by_cases h : q.1 = n
    · simp [dictGet?, h]
    · simp [dictGet?, h, ih]

theorem stackOutputs_ok_lookup :
    ∀ (d : List (String × List (Option Mat))) (m : List (String × Tensor)),
      stackOutputs d = .ok m →
      ∀ n t, dictGet? m n = some t →
        ∃ s, dictGet? d n = some s ∧ torchStack s = .ok t := by
  intro d
  induction d with
  | nil =>
    intro m h n t ht
    rw [stackOutputs] at h
    injection h with h
    subst h
    exact Option.noConfusion ht
  | cons q qs ih =>
    intro m h n t ht
    rw [stackOutputs] at h
    split at h
    · exact Except.noConfusion h
    · rename_i t1 hstack1
      split at h
      · exact Except.noConfusion h
      · rename_i rest hrest
        injection h with h
        subst h
        rw [dictGet?] at ht
        by_cases hq : q.1 = n
        · rw [if_pos hq] at ht
          injection ht with ht
          subst ht
          refine ⟨q.2, ?_, hstack1⟩
          rw [dictGet?, if_pos hq]
        · rw [if_neg hq] at ht
          rcases ih rest hrest n t ht with ⟨s, hs, hst⟩
          refine ⟨s, ?_, hst⟩
          rw [dictGet?, if_neg hq]
          exact hs

/-! ### `forward` stage lemmas -/

theorem forward_cons (w : NCNNWrapper) (inputs : List (String × Tensor))
    (t0 : Tensor) (restT : List Tensor)
    (hm : inputs.map Prod.snd = t0 :: restT) :
    forward w inputs = forwardValid w inputs t0.data.length restT := by
  rw [forward, hm]

theorem forwardValid_err (w : NCNNWrapper) (inputs : List (String × Tensor))
    (bs : Nat) (restT : List Tensor) (e : PyError)
    (h : validate restT bs = .error e) :
    forwardValid w inputs bs restT = ⟨.error e, 0⟩ := by
  simp only [forwardValid, h]

theorem forwardValid_ok (w : NCNNWrapper) (inputs : List (String × Tensor))
    (bs : Nat) (restT : List Tensor)
    (h : validate restT bs = .ok ()) :
    forwardValid w inputs bs restT = forwardRun w inputs bs := by
  simp only [forwardValid, h]

/-- Central success characterisation of `forward`: on a uniform,
post-first-tensor cpu batch of positive size on which every extraction
succeeds, the call returns a dict whose entry for each resolved
output name stacks the per-sample extraction results in sample order, and
creates one extractor per sample. -/
theorem forward_ok_char (w : NCNNWrapper) (inputs : List (String × Tensor))
    (t0 : Tensor) (restT : List Tensor)
    (hm : inputs.map Prod.snd = t0 :: restT)
    (hval : ∀ t ∈ restT, t.data.length = t0.data.length ∧ t.device = "cpu")
    (hok : ∀ j, j < t0.data.length → ∀ n ∈ w.output_names,
      (w.net.extract (boundAt inputs j) n).1 = 0)
    (hbs : 0 < t0.data.length) :
    ∃ m, forward w inputs = ⟨.ok m, t0.data.length⟩
      ∧ (∀ n, dictGet? m n
          = if n ∈ w.output_names then
              some ⟨"cpu", (List.range t0.data.length).map
                (fun j => (w.net.extract (boundAt inputs j) n).2)⟩
            else none)
      ∧ keysNodup m := by
  have hinp : ∀ p ∈ inputs, p.2.data.length = t0.data.length := by
    intro p hp
    have hmem : p.2 ∈ inputs.map Prod.snd := List.mem_map_of_mem _ hp
    rw [hm] at hmem
    rcases List.mem_cons.1 hmem with h | h
    · rw [h]
    · exact (hval _ h).1
  have hvalok : validate restT t0.data.length = .ok () :=
    (validate_ok_iff restT t0.data.length).2 hval
  rcases runSamples_ok_char w.net.extract w.output_names inputs
      t0.data.length hinp hok t0.data.length 0
      (initOutputs w.output_names t0.data.length) 0 (by omega)
      (initOutputs_keysNodup w.output_names t0.data.length)
      (by
        intro n
        rw [initOutputs_get]
        by_cases h1 : n ∈ w.output_names
        · rw [if_pos h1, if_pos h1, SlotsAt_zero]
        · rw [if_neg h1, if_neg h1])
    with ⟨d', hloop, hnd', hchar'⟩
  have hentry : ∀ q ∈ d', torchStack q.2
      = .ok ⟨"cpu", (List.range t0.data.length).map
          (fun j => (w.net.extract (boundAt inputs j) q.1).2)⟩ := by
    intro q hq
    have hget : dictGet? d' q.1 = some q.2 := dictGet?_of_mem d' q hnd' hq
    rw [hchar' q.1] at hget
    by_cases h1 : q.1 ∈ w.output_names
    · rw [if_pos h1] at hget
      injection hget with hget
      rw [← hget, SlotsAt_last]
      have hmm : (List.range t0.data.length).map
          (fun j => some (w.net.extract (boundAt inputs j) q.1).2)
          = ((List.range t0.data.length).map
              (fun j => (w.net.extract (boundAt inputs j) q.1).2)).map some := by
        rw [List.map_map]
        rfl
      rw [hmm]
      apply torchStack_map_some
      intro hnil
      have : (List.range t0.data.length).length = 0 := by
        rw [← List.length_map (List.range t0.data.length)
          (fun j => (w.net.extract (boundAt inputs j) q.1).2), hnil]
        rfl
      rw [List.length_range] at this
      omega
    · rw [if_neg h1] at hget
      exact Option.noConfusion hget
  have hstack : stackOutputs d'
      = .ok (d'.map (fun q => (q.1, (⟨"cpu",
          (List.range t0.data.length).map
            (fun j => (w.net.extract (boundAt inputs j) q.1).2)⟩ : Tensor)))) :=
    stackOutputs_ok_map
      (fun n => (⟨"cpu", (List.range t0.data.length).map
        (fun j => (w.net.extract (boundAt inputs j) n).2)⟩ : Tensor))
      d' hentry
  refine ⟨d'.map (fun q => (q.1, (⟨"cpu", (List.range t0.data.length).map
      (fun j => (w.net.extract (boundAt inputs j) q.1).2)⟩ : Tensor))),
    ?_, ?_, ?_⟩
  · rw [forward_cons w inputs t0 restT hm,
      forwardValid_ok w inputs t0.data.length restT hvalok]
    rw [List.range_eq_range'] at hstack ⊢
    simp only [forwardRun, List.range_eq_range', hloop, hstack]
    rw [show 0 + t0.data.length = t0.data.length from by omega]
  · intro n
    rw [dictGet?_mapVal (fun n => (⟨"cpu", (List.range t0.data.length).map
      (fun j => (w.net.extract (boundAt inputs j) n).2)⟩ : Tensor)) d' n]
    rw [hchar' n]
    by_cases h1 : n ∈ w.output_names <;> simp [h1]
  · have hkeys : keysOf (d'.map (fun q => (q.1, (⟨"cpu",
        (List.range t0.data.length).map
          (fun j => (w.net.extract (boundAt inputs j) q.1).2)⟩ : Tensor))))
        = keysOf d' := by
      simp [keysOf, List.map_map, Function.comp]
    rw [keysNodup, hkeys]
    exact hnd'

/-- Failure characterisation of `forward`: if some extraction of a resolved
output name fails on some in-range sample (and the batch passes
validation), the whole call raises the extraction assertion. -/
theorem forward_extract_err (w : NCNNWrapper)
    (inputs : List (String × Tensor)) (t0 : Tensor) (restT : List Tensor)
    (j : Nat) (n : String)
    (hm : inputs.map Prod.snd = t0 :: restT)
    (hval : ∀ t ∈ restT, t.data.length = t0.data.length ∧ t.device = "cpu")
    (hj : j < t0.data.length) (hn : n ∈ w.output_names)
    (hfail : (w.net.extract (boundAt inputs j) n).1 ≠ 0) :
    ∃ out : Mat, (forward w inputs).result
      = .error (.assertionError
          ("Failed to extract output : " ++ toString out ++ ".")) := by
  have hinp : ∀ p ∈ inputs, p.2.data.length = t0.data.length := by
    intro p hp
    have hmem : p.2 ∈ inputs.map Prod.snd := List.mem_map_of_mem _ hp
    rw [hm] at hmem
    rcases List.mem_cons.1 hmem with h | h
    · rw [h]
    · exact (hval _ h).1
  have hvalok : validate restT t0.data.length = .ok () :=
    (validate_ok_iff restT t0.data.length).2 hval
  rcases runSamples_err w.net.extract w.output_names inputs t0.data.length
      hinp (List.range t0.data.length)
      (initOutputs w.output_names t0.data.length) 0
      (fun i hi => List.mem_range.1 hi)
      (by
        intro n'
        rw [initOutputs_get]
        by_cases h1 : n' ∈ w.output_names <;> simp [h1])
      (by
        intro n' s hs
        rw [initOutputs_get] at hs
        by_cases h1 : n' ∈ w.output_names
        · rw [if_pos h1] at hs
          injection hs with hs
          rw [← hs, List.length_replicate]
        · rw [if_neg h1] at hs
          exact Option.noConfusion hs)
      ⟨j, List.mem_range.2 hj, n, hn, hfail⟩
    with ⟨out, cnt', hloop⟩
  refine ⟨out, ?_⟩
  rw [forward_cons w inputs t0 restT hm,
    forwardValid_ok w inputs t0.data.length restT hvalok]
  simp only [forwardRun, hloop]

/-- Shared helper: a batch-size or device violation among the tensors after
the first makes `forward` raise an assertion before any extractor exists. -/
theorem forward_contract_err (w : NCNNWrapper)
    (inputs : List (String × Tensor)) (t0 : Tensor) (restT : List Tensor)
    (hm : inputs.map Prod.snd = t0 :: restT)
    (hbad : ∃ t ∈ restT, t.data.length ≠ t0.data.length ∨ t.device ≠ "cpu") :
    ∃ msg, forward w inputs = ⟨.error (.assertionError msg), 0⟩ := by
  rcases validate_error restT t0.data.length hbad with ⟨msg, hverr⟩
  refine ⟨msg, ?_⟩
  rw [forward_cons w inputs t0 restT hm,
    forwardValid_err w inputs t0.data.length restT _ hverr]

/-! ### Claim theorems -/

/-- Claim C1, counterexample.  The claim says the Extraction Failure raised
by `forward` identifies the failing output name.  At this concrete input the
engine fails on the requested output "boxes", and `forward` raises the
extraction assertion — but its message is the fixed prefix followed by the
rendered mat, and the failing output name "boxes" does not occur anywhere in
that message, so the claim is false as stated. -/
theorem C1_counterexample :
    (forward ⟨["boxes"], ⟨none, fun _ _ => (1, [0])⟩⟩
        [("input", ⟨"cpu", [[5]]⟩)]).result
      = .error (.assertionError "Failed to extract output : [0].")
    ∧ ¬ ("boxes".data <:+: "Failed to extract output : [0].".data) := by
  constructor
  · rfl
  · decide

/-- Claim C1, amended.  If the engine returns a non-zero status when
extracting a requested output for an in-range sample of a batch that passes
validation, `forward` raises an Extraction Failure (the assertion of
`__ncnn_execute`) whose message embeds the engine-provided rendering of the
extraction result — but not the failing output name — and returns no
output mapping at all (the call result is the error, so no partial mapping
escapes). -/
theorem C1_extraction_failure (w : NCNNWrapper)
    (inputs : List (String × Tensor)) (t0 : Tensor) (restT : List Tensor)
    (j : Nat) (n : String)
    (hm : inputs.map Prod.snd = t0 :: restT)
    (hval : ∀ t ∈ restT, t.data.length = t0.data.length ∧ t.device = "cpu")
    (hj : j < t0.data.length) (hn : n ∈ w.output_names)
    (hfail : (w.net.extract (boundAt inputs j) n).1 ≠ 0) :
    ∃ out : Mat, (forward w inputs).result
      = .error (.assertionError
          ("Failed to extract output : " ++ toString out ++ ".")) :=
  forward_extract_err w inputs t0 restT j n hm hval hj hn hfail

/-- Witness for C1: a concrete failing extraction on which the amended
theorem applies. -/
theorem C1_extraction_failure_witness :
    ∃ out : Mat, (forward ⟨["boxes"], ⟨none, fun _ _ => (1, [0])⟩⟩
        [("inp", ⟨"cpu", [[5]]⟩)]).result
      = .error (.assertionError
          ("Failed to extract output : " ++ toString out ++ ".")) :=
  C1_extraction_failure ⟨["boxes"], ⟨none, fun _ _ => (1, [0])⟩⟩
    [("inp", ⟨"cpu", [[5]]⟩)] ⟨"cpu", [[5]]⟩ [] 0 "boxes" rfl
    (by simp) (by decide) (by decide) (by decide)

/-- Claim C2, counterexample.  The claim says any non-CPU input tensor —
including the first — triggers a Contract Violation before any extractor is
created.  Here the only input tensor lives on "cuda", yet `forward`
validates nothing (the device check skips the first tensor), creates one
extractor, and returns successfully. -/
theorem C2_counterexample :
    forward ⟨["out"], ⟨none, fun _ _ => (0, [7])⟩⟩
        [("input", ⟨"cuda", [[1]]⟩)]
      = ⟨.ok [("out", ⟨"cpu", [[7]]⟩)], 1⟩ := by
  rfl

/-- Claim C2, amended.  If any input tensor other than the first (in input
order) is not CPU-resident, `forward` raises a Contract Violation (an
assertion) and no extractor is created. -/
theorem C2_device_rejection (w : NCNNWrapper)
    (inputs : List (String × Tensor)) (t0 : Tensor) (restT : List Tensor)
    (hm : inputs.map Prod.snd = t0 :: restT)
    (hbad : ∃ t ∈ restT, t.device ≠ "cpu") :
    ∃ msg, (forward w inputs).result = .error (.assertionError msg)
      ∧ (forward w inputs).extractorsCreated = 0 := by
  rcases forward_contract_err w inputs t0 restT hm
      (by rcases hbad with ⟨t, ht, hd⟩; exact ⟨t, ht, Or.inr hd⟩)
    with ⟨msg, hf⟩
  exact ⟨msg, by rw [hf], by rw [hf]⟩

/-- Witness for C2: a second input on "cuda" is rejected with no extractor
created. -/
theorem C2_device_rejection_witness :
    ∃ msg, (forward ⟨["out"], ⟨none, fun _ _ => (0, [7])⟩⟩
        [("a", ⟨"cpu", [[1]]⟩), ("b", ⟨"cuda", [[2]]⟩)]).result
        = .error (.assertionError msg)
      ∧ (forward ⟨["out"], ⟨none, fun _ _ => (0, [7])⟩⟩
          [("a", ⟨"cpu", [[1]]⟩), ("b", ⟨"cuda", [[2]]⟩)]).extractorsCreated
        = 0 :=
  C2_device_rejection ⟨["out"], ⟨none, fun _ _ => (0, [7])⟩⟩
    [("a", ⟨"cpu", [[1]]⟩), ("b", ⟨"cuda", [[2]]⟩)]
    ⟨"cpu", [[1]]⟩ [⟨"cuda", [[2]]⟩] rfl
    ⟨⟨"cuda", [[2]]⟩, by decide, by decide⟩

/-- Claim C3.  If two input tensors have different leading-dimension sizes,
the call fails with an assertion and no extractor is ever created: the
validation loop compares every later tensor against the first, so any
mismatch among the inputs surfaces there, before the batch loop starts. -/
theorem C3_batch_mismatch (w : NCNNWrapper)
    (inputs : List (String × Tensor)) (t1 t2 : Tensor)
    (h1 : t1 ∈ inputs.map Prod.snd) (h2 : t2 ∈ inputs.map Prod.snd)
    (hne : t1.data.length ≠ t2.data.length) :
    ∃ msg, (forward w inputs).result = .error (.assertionError msg)
      ∧ (forward w inputs).extractorsCreated = 0 := by
  rcases hm : inputs.map Prod.snd with _ | ⟨t0, restT⟩
  · rw [hm] at h1
    cases h1
  · rw [hm] at h1 h2
    have hbad : ∃ t ∈ restT,
        t.data.length ≠ t0.data.length ∨ t.device ≠ "cpu" := by
      by_cases hq : t1.data.length = t0.data.length
      · have h2ne : t2.data.length ≠ t0.data.length := by
          intro h
          exact hne (hq.trans h.symm)
        have hmem : t2 ∈ restT := by
          rcases List.mem_cons.1 h2 with h | h
          · exact absurd (by rw [h]) h2ne
          · exact h
        exact ⟨t2, hmem, Or.inl h2ne⟩
      · have hmem : t1 ∈ restT := by
          rcases List.mem_cons.1 h1 with h | h
          · exact absurd (by rw [h]) hq
          · exact h
        exact ⟨t1, hmem, Or.inl hq⟩
    rcases forward_contract_err w inputs t0 restT hm hbad with ⟨msg, hf⟩
    exact ⟨msg, by rw [hf], by rw [hf]⟩

/-- Witness for C3: inputs of batch sizes 2 and 1 are rejected with no
extractor created. -/
theorem C3_batch_mismatch_witness :
    ∃ msg, (forward ⟨["out"], ⟨none, fun _ _ => (0, [7])⟩⟩
        [("a", ⟨"cpu", [[1], [2]]⟩), ("b", ⟨"cpu", [[3]]⟩)]).result
        = .error (.assertionError msg)
      ∧ (forward ⟨["out"], ⟨none, fun _ _ => (0, [7])⟩⟩
          [("a", ⟨"cpu", [[1], [2]]⟩), ("b", ⟨"cpu", [[3]]⟩)]).extractorsCreated
        = 0 :=
  C3_batch_mismatch ⟨["out"], ⟨none, fun _ _ => (0, [7])⟩⟩
    [("a", ⟨"cpu", [[1], [2]]⟩), ("b", ⟨"cpu", [[3]]⟩)]
    ⟨"cpu", [[1], [2]]⟩ ⟨"cpu", [[3]]⟩ (by decide) (by decide) (by decide)

/-- Claim C9.  Calling `forward` with an empty input mapping fails
immediately with the IndexError raised by indexing the first input tensor:
no validation verdict, no extractor, no engine work — the error is the
index error itself and the extractor count is zero. -/
theorem C9_empty_inputs (w : NCNNWrapper) :
    forward w [] = ⟨.error (.indexError "list index out of range"), 0⟩ := rfl

/-- Claim C10, counterexample.  The claim says a batch of common leading
dimension 0 always fails at the final stacking step.  With an empty
resolved output-name list the accumulator is empty, the stacking loop runs
zero times, and `forward` returns an empty mapping successfully. -/
theorem C10_counterexample :
    forward ⟨[], ⟨none, fun _ _ => (0, [7])⟩⟩ [("x", ⟨"cpu", []⟩)]
      = ⟨.ok [], 0⟩ := rfl

/-- Claim C10, amended.  On a validated batch of common leading dimension 0,
`forward` creates no extractor and runs zero per-sample iterations; when at
least one output name is resolved it then fails at the stacking step with
the RuntimeError of stacking an empty sequence (instead of returning
outputs with leading dimension 0), while with an empty resolved output-name
list it returns an empty mapping. -/
theorem C10_batch_zero (w : NCNNWrapper) (inputs : List (String × Tensor))
    (t0 : Tensor) (restT : List Tensor)
    (hm : inputs.map Prod.snd = t0 :: restT)
    (hb0 : t0.data.length = 0)
    (hval : ∀ t ∈ restT, t.data.length = 0 ∧ t.device = "cpu") :
    (forward w inputs).extractorsCreated = 0
    ∧ (w.output_names ≠ [] → (forward w inputs).result
        = .error (.runtimeError "stack expects a non-empty TensorList"))
    ∧ (w.output_names = [] → (forward w inputs).result = .ok []) := by
  have hvalok : validate restT t0.data.length = .ok () := by
    apply (validate_ok_iff _ _).2
    intro t ht
    rw [hb0]
    exact hval t ht
  have hf : forward w inputs = forwardRun w inputs t0.data.length := by
    rw [forward_cons w inputs t0 restT hm,
      forwardValid_ok w inputs t0.data.length restT hvalok]
  have hrun : runSamples w.net.extract w.output_names inputs
      (List.range t0.data.length)
      (initOutputs w.output_names t0.data.length) 0
      = (.ok (initOutputs w.output_names t0.data.length), 0) := by
    rw [hb0]
    rfl
  have hfr : forwardRun w inputs t0.data.length
      = ⟨stackOutputs (initOutputs w.output_names t0.data.length), 0⟩ := by
    simp only [forwardRun, hrun]
  refine ⟨by rw [hf, hfr], ?_, ?_⟩
  · intro hne
    rw [hf, hfr]
    rcases hd : initOutputs w.output_names t0.data.length with _ | ⟨q, qs⟩
    · exact absurd hd (initOutputs_ne_nil _ _ hne)
    · have hq : q.2 = List.replicate t0.data.length (none : Option Mat) :=
        initOutputs_val _ _ q (by rw [hd]; exact List.mem_cons_self _ _)
      rw [hb0] at hq
      simp only [List.replicate_zero] at hq
      show stackOutputs (q :: qs) = _
      rw [stackOutputs, hq]
      rfl
  · intro hnil
    rw [hf, hfr, hnil]
    rfl

/-- Witness for C10: a batch of leading dimension 0 with one resolved
output name reaches the stacking RuntimeError with zero extractors
created, and the same batch with no output names returns an empty dict. -/
theorem C10_batch_zero_witness :
    ((forward ⟨["out"], ⟨none, fun _ _ => (0, [7])⟩⟩
        [("x", ⟨"cpu", []⟩)]).extractorsCreated = 0
      ∧ (["out"] ≠ ([] : List String) →
          (forward ⟨["out"], ⟨none, fun _ _ => (0, [7])⟩⟩
            [("x", ⟨"cpu", []⟩)]).result
          = .error (.runtimeError "stack expects a non-empty TensorList"))
      ∧ (["out"] = ([] : List String) →
          (forward ⟨["out"], ⟨none, fun _ _ => (0, [7])⟩⟩
            [("x", ⟨"cpu", []⟩)]).result = .ok [])) :=
  C10_batch_zero ⟨["out"], ⟨none, fun _ _ => (0, [7])⟩⟩
    [("x", ⟨"cpu", []⟩)] ⟨"cpu", []⟩ [] rfl rfl (by simp)

/-- Claim C4.  For a valid batch of size 1 on which extraction at sample 0
succeeds, the mapping returned by `forward` equals, name for name, the
single-sample result of `__ncnn_execute` for sample 0 wrapped in a new
length-1 leading dimension: the stacking identity law. -/
theorem C4_stacking_identity (w : NCNNWrapper)
    (inputs : List (String × Tensor)) (t0 : Tensor) (restT : List Tensor)
    (hm : inputs.map Prod.snd = t0 :: restT)
    (hb1 : t0.data.length = 1)
    (hval : ∀ t ∈ restT, t.data.length = 1 ∧ t.device = "cpu")
    (hok : ∀ n ∈ w.output_names,
      (w.net.extract (boundAt inputs 0) n).1 = 0) :
    ∃ m r, (forward w inputs).result = .ok m
      ∧ ncnnExecute (w.net.extract (boundAt inputs 0)) w.output_names []
          = .ok r
      ∧ ∀ n, dictGet? m n
          = (dictGet? r n).map (fun mat => (⟨"cpu", [mat]⟩ : Tensor)) := by
  have hval' : ∀ t ∈ restT,
      t.data.length = t0.data.length ∧ t.device = "cpu" := by
    intro t ht
    rw [hb1]
    exact hval t ht
  have hok' : ∀ j, j < t0.data.length → ∀ n ∈ w.output_names,
      (w.net.extract (boundAt inputs j) n).1 = 0 := by
    intro j hj n hn
    have hj0 : j = 0 := by
      rw [hb1] at hj
      omega
    rw [hj0]
    exact hok n hn
  rcases forward_ok_char w inputs t0 restT hm hval' hok'
      (by rw [hb1]; omega) with ⟨m, hf, hchar, _⟩
  rcases ncnnExecute_ok_char (w.net.extract (boundAt inputs 0))
      w.output_names hok [] with ⟨r, hr, hrchar⟩
  refine ⟨m, r, by rw [hf], hr, ?_⟩
  intro n
  rw [hchar n, hrchar n]
  by_cases hmem : n ∈ w.output_names
  · rw [if_pos hmem, if_pos hmem, hb1]
    rfl
  · rw [if_neg hmem, if_neg hmem]
    rfl

/-- Witness for C4: a concrete batch of size 1 on which the stacking
identity holds. -/
theorem C4_stacking_identity_witness :
    ∃ m r, (forward ⟨["out"], ⟨none, fun _ _ => (0, [9])⟩⟩
        [("i", ⟨"cpu", [[4]]⟩)]).result = .ok m
      ∧ ncnnExecute ((fun _ _ => ((0 : Int), ([9] : Mat)))
            (boundAt [("i", ⟨"cpu", [[4]]⟩)] 0)) ["out"] []
          = .ok r
      ∧ ∀ n, dictGet? m n
          = (dictGet? r n).map (fun mat => (⟨"cpu", [mat]⟩ : Tensor)) :=
  C4_stacking_identity ⟨["out"], ⟨none, fun _ _ => (0, [9])⟩⟩
    [("i", ⟨"cpu", [[4]]⟩)] ⟨"cpu", [[4]]⟩ [] rfl rfl (by simp) (by decide)

/-- Claim C5.  For a valid batch (uniform batch size, CPU-resident tensors,
positive batch size) on which every extraction succeeds, `forward` returns
a mapping whose key set is exactly the resolved output-name set. -/
theorem C5_key_set (w : NCNNWrapper) (inputs : List (String × Tensor))
    (t0 : Tensor) (restT : List Tensor)
    (hm : inputs.map Prod.snd = t0 :: restT)
    (_hcpu0 : t0.device = "cpu")
    (hval : ∀ t ∈ restT, t.data.length = t0.data.length ∧ t.device = "cpu")
    (hok : ∀ j, j < t0.data.length → ∀ n ∈ w.output_names,
      (w.net.extract (boundAt inputs j) n).1 = 0)
    (hbs : 0 < t0.data.length) :
    ∃ m, (forward w inputs).result = .ok m
      ∧ ∀ n, n ∈ keysOf m ↔ n ∈ w.output_names := by
  rcases forward_ok_char w inputs t0 restT hm hval hok hbs
    with ⟨m, hf, hchar, _⟩
  refine ⟨m, by rw [hf], ?_⟩
  intro n
  rw [← dictGet?_isSome_iff, hchar n]
  by_cases hmem : n ∈ w.output_names <;> simp [hmem]

/-- Witness for C5: a concrete valid batch whose returned key set matches
the output names. -/
theorem C5_key_set_witness :
    ∃ m, (forward ⟨["out"], ⟨none, fun _ _ => (0, [9])⟩⟩
        [("i", ⟨"cpu", [[4], [5]]⟩)]).result = .ok m
      ∧ ∀ n, n ∈ keysOf m ↔ n ∈ ["out"] :=
  C5_key_set ⟨["out"], ⟨none, fun _ _ => (0, [9])⟩⟩
    [("i", ⟨"cpu", [[4], [5]]⟩)] ⟨"cpu", [[4], [5]]⟩ [] rfl rfl (by simp)
    (by decide) (by decide)

/-- Claim C6.  Whenever `forward` returns a mapping, every tensor in it has
leading dimension equal to the batch size read off the leading dimension of
the first input tensor. -/
theorem C6_leading_dim (w : NCNNWrapper) (inputs : List (String × Tensor))
    (t0 : Tensor) (restT : List Tensor) (m : List (String × Tensor))
    (hm : inputs.map Prod.snd = t0 :: restT)
    (hf : (forward w inputs).result = .ok m) :
    ∀ n t, dictGet? m n = some t → t.data.length = t0.data.length := by
  rw [forward_cons w inputs t0 restT hm] at hf
  rcases hv : validate restT t0.data.length with e | u
  · rw [forwardValid_err w inputs t0.data.length restT e hv] at hf
    exact Except.noConfusion hf
  · cases u
    rw [forwardValid_ok w inputs t0.data.length restT hv] at hf
    rw [forwardRun] at hf
    split at hf
    · exact Except.noConfusion hf
    · rename_i d' cnt hrun
      have hst : stackOutputs d' = .ok m := hf
      intro n t ht
      rcases stackOutputs_ok_lookup d' m hst n t ht with ⟨s, hs, hstk⟩
      rcases runSamples_ok_pres w.net.extract w.output_names inputs
          (List.range t0.data.length)
          (initOutputs w.output_names t0.data.length) 0 d' cnt hrun n s hs
        with ⟨s0, hs0, hlen⟩
      rw [initOutputs_get] at hs0
      by_cases hmem : n ∈ w.output_names
      · rw [if_pos hmem] at hs0
        injection hs0 with hs0
        rw [torchStack_ok_length s t hstk, hlen, ← hs0,
          List.length_replicate]
      · rw [if_neg hmem] at hs0
        exact Option.noConfusion hs0

/-- Witness for C6: a concrete successful batch of size 2 whose output
tensor has leading dimension 2. -/
theorem C6_leading_dim_witness :
    (⟨"cpu", [[7], [7]]⟩ : Tensor).data.length
      = (⟨"cpu", [[1], [2]]⟩ : Tensor).data.length :=
  C6_leading_dim ⟨["out"], ⟨none, fun _ _ => (0, [7])⟩⟩
    [("i", ⟨"cpu", [[1], [2]]⟩)] ⟨"cpu", [[1], [2]]⟩ []
    [("out", ⟨"cpu", [[7], [7]]⟩)] rfl rfl "out" ⟨"cpu", [[7], [7]]⟩ rfl

/-- Claim C7.  When `output_names` is omitted at construction, the wrapper
resolves its output-name list to exactly the self-declared names of the
network, in the order of the network; when the network object does not
expose output-name introspection, construction fails with the bare
assertion of the `hasattr` check (a Configuration error). -/
theorem C7_output_resolution (net : Net) :
    (∀ names, net.outputNamesAttr = some names
      → construct net none = .ok ⟨names, net⟩)
    ∧ (net.outputNamesAttr = none
      → construct net none = .error (.assertionError "")) := by
  constructor
  · intro names h
    simp only [construct, h]
  · intro h
    simp only [construct, h]

/-- Witness for C7: a network declaring outputs boxes and scores resolves
to exactly that list in that order, and a network without the
introspection attribute fails construction. -/
theorem C7_output_resolution_witness :
    construct ⟨some ["boxes", "scores"], fun _ _ => (0, [])⟩ none
      = .ok ⟨["boxes", "scores"], ⟨some ["boxes", "scores"],
          fun _ _ => (0, [])⟩⟩
    ∧ construct ⟨none, fun _ _ => (0, [])⟩ none
      = .error (.assertionError "") :=
  ⟨(C7_output_resolution ⟨some ["boxes", "scores"],
      fun _ _ => (0, [])⟩).1 ["boxes", "scores"] rfl,
   (C7_output_resolution ⟨none, fun _ _ => (0, [])⟩).2 rfl⟩

/-- Claim C8.  The call is deterministic: two `forward` calls against
wrappers with the same resolved output names and the same engine extraction
function, on equal input mappings, return identical results — the wrapper
keeps no other state that could influence the output, so identical calls
against an unchanged Network Handle agree in numeric content. -/
theorem C8_deterministic (w w' : NCNNWrapper)
    (inputs inputs' : List (String × Tensor))
    (hnames : w.output_names = w'.output_names)
    (hex : w.net.extract = w'.net.extract)
    (hin : inputs = inputs') :
    forward w inputs = forward w' inputs' := by
  rcases w with ⟨ns, a, e⟩
  rcases w' with ⟨ns', a', e'⟩
  subst hin
  have h1 : ns = ns' := hnames
  have h2 : e = e' := hex
  subst h1
  subst h2
  rfl

/-- Witness for C8: two wrappers differing only in the introspection
attribute of their nets produce identical results on the same input. -/
theorem C8_deterministic_witness :
    forward ⟨["o"], ⟨some ["x"], fun _ _ => (0, [1])⟩⟩
        [("i", ⟨"cpu", [[2]]⟩)]
      = forward ⟨["o"], ⟨none, fun _ _ => (0, [1])⟩⟩
          [("i", ⟨"cpu", [[2]]⟩)] :=
  C8_deterministic ⟨["o"], ⟨some ["x"], fun _ _ => (0, [1])⟩⟩
    ⟨["o"], ⟨none, fun _ _ => (0, [1])⟩⟩
    [("i", ⟨"cpu", [[2]]⟩)] [("i", ⟨"cpu", [[2]]⟩)] rfl rfl rfl

end NCNN
